import Mathlib

/-!
# Verification of the tealdeer cache layer

A shallow embedding of `src/cache.rs` and `src/extensions.rs` of the
tealdeer repository, together with proofs about the embedded operations.

Modelling conventions:
* A filesystem path is a list of path components (`List String`).  Rust's
  `Path`/`PathBuf` equality compares component sequences, so this is a
  faithful representation for the lookup code, which only ever joins
  single components.
* Filesystem queries are passed in explicitly: `find_page` receives the
  `is_file` predicate, `list_pages` and `old_custom_pages_exist` receive a
  `read_dir` function, `reader` receives an `open` function returning the
  byte contents of a file (bytes are `Nat`, always < 256 in practice; no
  arithmetic is performed on them).
* Fallible Rust code returning `Result` becomes `Except`.
-/

/-- A path, as its list of single components (root-joined, in order). -/
abbrev FsPath := List String

/-- Display a path, for error messages (`Path::display`). -/
def pathDisplay (p : FsPath) : String := String.intercalate "/" p

/-- The platform enumeration from `types.rs`, as used by `cache.rs`. -/
inductive PlatformType where
  | linux | osx | sunos | windows | android | freebsd | netbsd | openbsd | common
deriving DecidableEq, Repr

/-- `impl DirectoryName for PlatformType` (cache.rs): the on-disk directory
name of each platform. -/
def PlatformType.directory_name : PlatformType → String
  | .linux => "linux"
  | .osx => "osx"
  | .sunos => "sunos"
  | .windows => "windows"
  | .android => "android"
  | .freebsd => "freebsd"
  | .netbsd => "netbsd"
  | .openbsd => "openbsd"
  | .common => "common"

/-- `impl DirectoryName for Language` (cache.rs): `format!("pages.{}", self.0)`.
A `Language` is just its tag string. -/
def language_directory_name (language : String) : String := "pages." ++ language

/-- `CacheConfig` (cache.rs): root directory, optional custom pages
directory, ordered platform list, ordered language list. -/
structure CacheConfig where
  pages_directory : FsPath
  custom_pages_directory : Option FsPath
  platforms : List PlatformType
  languages : List String

/-- `PageLookupResult` (cache.rs): a page path and an optional patch path. -/
structure PageLookupResult where
  page_path : FsPath
  patch_path : Option FsPath
deriving DecidableEq, Repr

/-- `PageLookupResult::with_page`. -/
def PageLookupResult.with_page (page_path : FsPath) : PageLookupResult :=
  { page_path := page_path, patch_path := none }

/-- `PageLookupResult::with_optional_patch`. -/
def PageLookupResult.with_optional_patch (r : PageLookupResult)
    (patch_path : Option FsPath) : PageLookupResult :=
  { r with patch_path := patch_path }

/-- `Cache::find_page` (cache.rs:91-129).  The filesystem is abstracted by
the `is_file` predicate (`Path::is_file`).  Step 1: custom `.page.md`
override.  Step 2: candidate `.patch.md` patch path.  Step 3: tree search
with the platform list as the outer loop and the language list as the
inner loop, the probed path being
`<root>/pages.<language>/<platform>/<command>.md`. -/
def find_page (is_file : FsPath → Bool) (cfg : CacheConfig) (command : String) :
    Option PageLookupResult :=
  let page_filename := command ++ ".md"
  let patch_filename := command ++ ".patch.md"
  let custom_filename := command ++ ".page.md"
  let custom_result : Option PageLookupResult :=
    cfg.custom_pages_directory.bind fun custom_pages_dir =>
      let custom_page := custom_pages_dir ++ [custom_filename]
      if is_file custom_page then some (PageLookupResult.with_page custom_page) else none
  match custom_result with
  | some r => some r
  | none =>
    let patch_path : Option FsPath :=
      Option.filter is_file (cfg.custom_pages_directory.map fun dir => dir ++ [patch_filename])
    cfg.platforms.findSome? fun platform =>
      cfg.languages.findSome? fun language =>
        let search_path := cfg.pages_directory ++
          [language_directory_name language, platform.directory_name, page_filename]
        if is_file search_path then
          some ((PageLookupResult.with_page search_path).with_optional_patch patch_path)
        else
          none

/-- The tree-search candidate paths of `find_page`, in probe order:
platform-major (outer loop), language-minor (inner loop). -/
def tree_candidates (cfg : CacheConfig) (command : String) : List FsPath :=
  cfg.platforms.flatMap fun platform => cfg.languages.map fun language =>
    cfg.pages_directory ++
      [language_directory_name language, platform.directory_name, command ++ ".md"]

/-- A sequential byte source as built by `PageLookupResult::reader`: a
file's bytes, or `Read::chain` of two sources (cache.rs:292-296). -/
inductive RSource where
  | file : List Nat → RSource
  | chain : RSource → RSource → RSource
deriving DecidableEq, Repr

/-- One single-byte `Read::read` step; `none` is end of stream.  `chain`
reads from its first source until exhausted, then from the second. -/
def RSource.read1 : RSource → Option (Nat × RSource)
  | .file [] => none
  | .file (b :: bs) => some (b, .file bs)
  | .chain a b =>
    match a.read1 with
    | some (x, a2) => some (x, .chain a2 b)
    | none => b.read1

/-- Measure for draining: total bytes plus number of constructors. -/
def RSource.size : RSource → Nat
  | .file bs => bs.length + 1
  | .chain a b => a.size + b.size + 1

/-- Repeated single-byte reads, bounded by fuel. -/
def RSource.drainFuel : Nat → RSource → List Nat
  | 0, _ => []
  | n + 1, s =>
    match s.read1 with
    | none => []
    | some (x, s2) => x :: RSource.drainFuel n s2

/-- Fully drain a source by repeated single-byte reads (`read_to_end`);
`size` bounds the number of reads needed (proved below). -/
def RSource.drain (s : RSource) : List Nat := RSource.drainFuel s.size s

/-- The concatenated contents of a source. -/
def RSource.contents : RSource → List Nat
  | .file bs => bs
  | .chain a b => a.contents ++ b.contents

/-- `PageLookupResult::reader` (cache.rs:272-297): open the page file, then
the patch file when a patch path is present, and chain
page / `"\n"` / patch.  `openFile` abstracts `File::open`, returning the
file's bytes, or `none` when the file cannot be opened. -/
def PageLookupResult.reader (openFile : FsPath → Option (List Nat))
    (r : PageLookupResult) : Except String RSource :=
  match openFile r.page_path with
  | none => .error ("Could not open page file at " ++ pathDisplay r.page_path)
  | some page_file =>
    match r.patch_path with
    | some path =>
      match openFile path with
      | none => .error ("Could not open patch file at " ++ pathDisplay path)
      | some patch_file =>
        .ok (.chain (.chain (.file page_file) (.file [10])) (.file patch_file))
    | none => .ok (.file page_file)

instance {ε α : Type} [DecidableEq ε] [DecidableEq α] : DecidableEq (Except ε α) :=
  fun a b =>
    match a, b with
    | .error e1, .error e2 =>
      if h : e1 = e2 then isTrue (by rw [h]) else isFalse (by simp [h])
    | .ok v1, .ok v2 =>
      if h : v1 = v2 then isTrue (by rw [h]) else isFalse (by simp [h])
    | .error _, .ok _ => isFalse fun hcon => Except.noConfusion hcon
    | .ok _, .error _ => isFalse fun hcon => Except.noConfusion hcon

/-- Filesystem error kinds.  `notFound` versus `permissionDenied`
distinguishes a missing directory from one that exists but cannot be
read. -/
inductive IOErr where
  | notFound
  | permissionDenied
  | invalidFilename (path : String)
  | other (msg : String)
deriving DecidableEq, Repr

/-- One directory entry as `read_dir` yields it: its file name, a flag
recording whether the name is valid Unicode (`OsString::into_string`
succeeds only then), and the result of `entry.file_type()?.is_file()`. -/
structure DirEntry where
  file_name : String
  name_valid : Bool
  is_file : Except IOErr Bool
deriving DecidableEq, Repr

/-- `fs::read_dir`: for each directory, an error or the entries in
enumeration order; each entry may itself be an error (the `entry?` in the
loops). -/
abbrev ReadDir := FsPath → Except IOErr (List (Except IOErr DirEntry))

/-- `s.ends_with(suffix)`, on the character lists (the suffixes used are
ASCII, so byte and character counts agree). -/
def strEndsWith (s suffix : String) : Bool :=
  decide (suffix.data.length ≤ s.data.length) &&
    decide (s.data.drop (s.data.length - suffix.data.length) = suffix.data)

/-- `page_path.truncate(page_path.len() - suffix.len())`: remove a suffix
of the given length from the end. -/
def stripSuffix (s suffix : String) : String :=
  String.mk (s.data.take (s.data.length - suffix.data.length))

/-- The entry loop of the `append_all` closure in `Cache::list_pages`
(cache.rs:139-157): propagate entry errors and file-type errors, fail on a
non-Unicode name of a regular file, collect the names of regular files
ending in `suffix`, suffix stripped, in enumeration order. -/
def process_entries (directory : FsPath) (suffix : String) :
    List (Except IOErr DirEntry) → List String → Except IOErr (List String)
  | [], pages => .ok pages
  | e :: rest, pages =>
    match e with
    | .error err => .error err
    | .ok entry =>
      match entry.is_file with
      | .error err => .error err
      | .ok true =>
        if entry.name_valid then
          if strEndsWith entry.file_name suffix then
            process_entries directory suffix rest
              (pages ++ [stripSuffix entry.file_name suffix])
          else
            process_entries directory suffix rest pages
        else
          .error (.invalidFilename (pathDisplay (directory ++ [entry.file_name])))
      | .ok false => process_entries directory suffix rest pages

/-- The `append_all` closure (cache.rs:134-160): a failed `read_dir` of any
kind is treated as an empty directory (`let Ok(file_iter) = ... else
return Ok(())`); otherwise the entries are processed. -/
def append_all (read_dir : ReadDir) (directory : FsPath) (suffix : String)
    (pages : List String) : Except IOErr (List String) :=
  match read_dir directory with
  | .error _ => .ok pages
  | .ok entries => process_entries directory suffix entries pages

/-- The `(language, platform)` subdirectories `list_pages` visits, in visit
order (language outer, platform inner; cache.rs:162-171). -/
def list_pages_dirs (cfg : CacheConfig) : List FsPath :=
  cfg.languages.flatMap fun language => cfg.platforms.map fun platform =>
    cfg.pages_directory ++ [language_directory_name language, platform.directory_name]

/-- Character-wise lexicographic `≤` on strings — the order
`Vec::<String>::sort_unstable` sorts by (byte order; they agree on the
ASCII page names, and any total order is a faithful model of sorting). -/
def charsLe : List Char → List Char → Bool
  | [], _ => true
  | _ :: _, [] => false
  | a :: as, b :: bs => if a = b then charsLe as bs else decide (a < b)

/-- Lexicographic `≤` on strings. -/
def strLe (a b : String) : Bool := charsLe a.data b.data

/-- `strLe` as a relation. -/
def strLeP (a b : String) : Prop := strLe a b = true

instance : DecidableRel strLeP := fun a b =>
  inferInstanceAs (Decidable (strLe a b = true))

/-- Rust `Vec::dedup` on the tail of a run: remove elements equal to the
previous kept element. -/
def dedup_run (prev : String) : List String → List String
  | [] => []
  | b :: rest => if b = prev then dedup_run prev rest else b :: dedup_run b rest

/-- Rust `Vec::dedup`: remove consecutive repeated elements, keeping the
first of each run. -/
def dedup_consec : List String → List String
  | [] => []
  | a :: rest => a :: dedup_run a rest

/-- `pages.sort_unstable(); pages.dedup()` (cache.rs:177-178).  Sorting is
modelled by insertion sort; since `strLeP` is a total order, every correct
sort produces this same list. -/
def sortedDedup (pages : List String) : List String :=
  dedup_consec (pages.insertionSort strLeP)

/-- `Cache::list_pages` (cache.rs:131-180): visit every
`<root>/pages.<language>/<platform>` directory collecting `.md` names,
then the custom pages directory (when configured) collecting `.page.md`
names, then sort and deduplicate. -/
def list_pages (read_dir : ReadDir) (cfg : CacheConfig) :
    Except IOErr (List String) :=
  match (list_pages_dirs cfg).foldlM
      (fun pages dir => append_all read_dir dir ".md" pages) [] with
  | .error err => .error err
  | .ok pages =>
    match (match cfg.custom_pages_directory with
           | some custom_pages_dir =>
             append_all read_dir custom_pages_dir ".page.md" pages
           | none => .ok pages) with
    | .error err => .error err
    | .ok pages => .ok (sortedDedup pages)

/-- Split a character list at its last `.`: the parts before and after. -/
def lastDotSplit : List Char → Option (List Char × List Char)
  | [] => none
  | c :: rest =>
    match lastDotSplit rest with
    | some (pre, post) => some (c :: pre, post)
    | none => if c = '.' then some ([], rest) else none

/-- Rust `Path::extension` on an entry's file name: the portion after the
last `.`, or `none` when there is no `.` or the name starts with its only
`.`. -/
def extension (file_name : String) : Option String :=
  match lastDotSplit file_name.data with
  | some (pre, post) => if pre = [] then none else some (String.mk post)
  | none => none

/-- The entry loop of `Cache::old_custom_pages_exist` (cache.rs:190-196):
propagate entry errors, return `true` at the first entry whose extension
is exactly `page` or exactly `patch`. -/
def old_pages_scan : List (Except IOErr DirEntry) → Except IOErr Bool
  | [] => .ok false
  | .error err :: _ => .error err
  | .ok entry :: rest =>
    match extension entry.file_name with
    | some ext => if ext = "page" || ext = "patch" then .ok true else old_pages_scan rest
    | none => old_pages_scan rest

/-- `Cache::old_custom_pages_exist` (cache.rs:182-199): `false` without a
configured custom directory or when reading it fails; otherwise scan its
entries. -/
def old_custom_pages_exist (read_dir : ReadDir) (cfg : CacheConfig) :
    Except IOErr Bool :=
  match cfg.custom_pages_directory with
  | none => .ok false
  | some directory =>
    match read_dir directory with
    | .error _ => .ok false
    | .ok entries => old_pages_scan entries

/-- An entry that the `append_all` loop passes without raising an error:
the entry read itself succeeded, its file-type query succeeded, and if it
is a regular file its name is valid Unicode. -/
def EntryFine (e : Except IOErr DirEntry) : Prop :=
  ∃ de b, e = .ok de ∧ de.is_file = .ok b ∧ (b = true → de.name_valid = true)

/-- The page name an entry contributes to `list_pages`, if any. -/
def entry_extract (suffix : String) (e : Except IOErr DirEntry) : Option String :=
  match e with
  | .error _ => none
  | .ok de =>
    match de.is_file with
    | .ok true =>
      if de.name_valid && strEndsWith de.file_name suffix then
        some (stripSuffix de.file_name suffix)
      else none
    | _ => none

/-- Every entry a successful `read_dir` at this directory yields is fine. -/
def DirFine (read_dir : ReadDir) (dir : FsPath) : Prop :=
  ∀ entries, read_dir dir = .ok entries → ∀ e ∈ entries, EntryFine e

/-- The names one directory contributes to `list_pages`; an unreadable
directory contributes nothing. -/
def dir_names (read_dir : ReadDir) (suffix : String) (dir : FsPath) : List String :=
  match read_dir dir with
  | .error _ => []
  | .ok entries => entries.filterMap (entry_extract suffix)

/-- The names the custom directory contributes, when configured. -/
def custom_names (read_dir : ReadDir) (cfg : CacheConfig) : List String :=
  match cfg.custom_pages_directory with
  | some d => dir_names read_dir ".page.md" d
  | none => []

/-- Replace every failing `read_dir` by a successful empty listing. -/
def emptifyReads (read_dir : ReadDir) : ReadDir := fun p =>
  match read_dir p with
  | .error _ => .ok []
  | .ok entries => .ok entries

/-- Two `read_dir` results listing the same directory in possibly
different enumeration orders (or both failing). -/
def ReadRel : Except IOErr (List (Except IOErr DirEntry)) →
    Except IOErr (List (Except IOErr DirEntry)) → Prop
  | .error _, .error _ => True
  | .ok l1, .ok l2 => l1.Perm l2
  | _, _ => False

/-- Is `root` an initial segment of `p`? -/
def underRoot : FsPath → FsPath → Bool
  | [], _ => true
  | _ :: _, [] => false
  | r :: rs, x :: xs => r = x && underRoot rs xs

/-- Modelled from the spec: the body of `Cache::update` is absent from the
source (`todo!()`, cache.rs:210-212).  Spec §4.4/§6: fetch and extract the
archive into a staged tree, and only on full success replace the cache
root's contents; on any fetch/extraction failure, report the failure and
leave the existing tree untouched.  The filesystem is a map from paths to
file bytes; `transfer` is the external transfer collaborator's outcome, a
fully staged tree or a failure. -/
def update (root : FsPath) (fs : FsPath → Option (List Nat))
    (transfer : Except String (FsPath → Option (List Nat))) :
    (FsPath → Option (List Nat)) × Except String Unit :=
  match transfer with
  | .error e => (fs, .error e)
  | .ok staged =>
    (fun p => if underRoot root p then staged (p.drop root.length) else fs p, .ok ())

/-- A `PathBuf`, as Rust compares and pops it: an absolute flag and the
list of components.  (`..` is an ordinary component here; `.` and empty
segments are dropped on push, as `Path::components` drops them.) -/
structure PathB where
  absolute : Bool
  comps : List String
deriving DecidableEq, Repr

/-- Split a character list on `/`. -/
def splitSlash : List Char → List (List Char)
  | [] => [[]]
  | c :: rest =>
    if c = '/' then [] :: splitSlash rest
    else
      match splitSlash rest with
      | [] => [[c]]
      | g :: gs => (c :: g) :: gs

/-- The components a pushed string contributes. -/
def strComponents (s : String) : List String :=
  ((splitSlash s.data).map fun g => String.mk g).filter fun c =>
    decide (c ≠ "") && decide (c ≠ ".")

/-- Whether a pushed string is an absolute path. -/
def strAbsolute (s : String) : Bool :=
  match s.data with
  | [] => false
  | c :: _ => decide (c = '/')

/-- `PathBuf::push` for one pushed string: an absolute path replaces the
buffer, otherwise the string's components are appended. -/
def PathB.pushStr (p : PathB) (s : String) : PathB :=
  if strAbsolute s then { absolute := true, comps := strComponents s }
  else { p with comps := p.comps ++ strComponents s }

/-- `PathBufExt::with` (extensions.rs:41-48): push every array element. -/
def pathBufWith (p : PathB) (components : List String) : PathB :=
  components.foldl PathB.pushStr p

/-- `PathBuf::pop`: drop the last component when there is one. -/
def PathB.pop (p : PathB) : PathB :=
  if p.comps.isEmpty then p else { p with comps := p.comps.dropLast }

/-- `Drop for PathBufWith` (extensions.rs:54-60): pop once per array
element of the matching `with` call. -/
def dropGuard : Nat → PathB → PathB
  | 0, p => p
  | n + 1, p => dropGuard n p.pop

/-- `Dedup::clear_duplicates` for `Vec<T>` (extensions.rs:11-20): rebuild
the vector, pushing each item only when it is not already present. -/
def clear_duplicates {α : Type} [DecidableEq α] (l : List α) : List α :=
  l.foldl (fun acc item => if item ∈ acc then acc else acc ++ [item]) []

/-- Stated from the claim's words, for comparison with `clear_duplicates`:
keep exactly the elements not seen before (the first occurrence of each
distinct element), in their original order; `seen` is the set of elements
already emitted. -/
def firstOccsFrom {α : Type} [DecidableEq α] (seen : List α) : List α → List α
  | [] => []
  | x :: xs =>
    if x ∈ seen then firstOccsFrom seen xs else x :: firstOccsFrom (seen ++ [x]) xs

lemma findSome?_ite_eq_find?_map {α β : Type} (p : α → Bool) (h : α → β) (l : List α) :
    (l.findSome? fun a => if p a then some (h a) else none) = (l.find? p).map h := by
  induction l with
  | nil => rfl
  | cons a l ih =>
    by_cases hp : p a
    · simp [List.findSome?_cons, List.find?_cons, hp]
    · simp only [Bool.not_eq_true] at hp
      simp [List.findSome?_cons, List.find?_cons, hp, ih]

lemma map_findSome? {α β γ : Type} (f : α → Option β) (g : β → γ) (l : List α) :
    (l.findSome? f).map g = l.findSome? fun a => (f a).map g := by
  induction l with
  | nil => rfl
  | cons a l ih =>
    cases hfa : f a
    · simp [List.findSome?_cons, hfa, ih]
    · simp [List.findSome?_cons, hfa]

lemma RSource.read1_none {s : RSource} (h : s.read1 = none) : s.contents = [] := by
  induction s with
  | file bs => cases bs <;> simp_all [RSource.read1, RSource.contents]
  | chain a b iha ihb =>
    cases ha : a.read1 with
    | none =>
      simp only [RSource.read1, ha] at h
      simp [RSource.contents, iha ha, ihb h]
    | some v => simp [RSource.read1, ha] at h

lemma RSource.read1_some {s s2 : RSource} {x : Nat} (h : s.read1 = some (x, s2)) :
    s.contents = x :: s2.contents ∧ s2.size < s.size := by
  induction s generalizing x s2 with
  | file bs =>
    cases bs with
    | nil => simp [RSource.read1] at h
    | cons b bs =>
      simp only [RSource.read1, Option.some.injEq, Prod.mk.injEq] at h
      obtain ⟨rfl, rfl⟩ := h
      simp [RSource.contents, RSource.size]
  | chain a b iha ihb =>
    cases ha : a.read1 with
    | none =>
      simp only [RSource.read1, ha] at h
      have := ihb h
      have hae := RSource.read1_none ha
      constructor
      · simp [RSource.contents, hae, this.1]
      · have : s2.size < b.size := this.2
        simp [RSource.size]; omega
    | some v =>
      obtain ⟨y, a2⟩ := v
      simp only [RSource.read1, ha, Option.some.injEq, Prod.mk.injEq] at h
      obtain ⟨rfl, rfl⟩ := h
      have := iha ha
      constructor
      · simp [RSource.contents, this.1]
      · have : a2.size < a.size := this.2
        simp [RSource.size]; omega

lemma RSource.drainFuel_eq_contents :
    ∀ (n : Nat) (s : RSource), s.size ≤ n → RSource.drainFuel n s = s.contents := by
  intro n
  induction n with
  | zero =>
    intro s hs
    exfalso
    cases s <;> simp [RSource.size] at hs
  | succ n ih =>
    intro s hs
    cases hr : s.read1 with
    | none => simp [RSource.drainFuel, hr, RSource.read1_none hr]
    | some v =>
      obtain ⟨x, s2⟩ := v
      obtain ⟨hc, hlt⟩ := RSource.read1_some hr
      simp [RSource.drainFuel, hr, hc, ih s2 (by omega)]

/-- Draining a source yields exactly its concatenated contents. -/
lemma RSource.drain_eq_contents (s : RSource) : s.drain = s.contents :=
  RSource.drainFuel_eq_contents s.size s (Nat.le_refl _)

lemma charsLe_refl : ∀ as, charsLe as as = true := by
  intro as
  induction as with
  | nil => rfl
  | cons a as ih => simp [charsLe, ih]

lemma charsLe_total : ∀ as bs, charsLe as bs = true ∨ charsLe bs as = true := by
  intro as
  induction as with
  | nil => intro bs; left; rfl
  | cons a as ih =>
    intro bs
    cases bs with
    | nil => right; rfl
    | cons b bs =>
      by_cases hab : a = b
      · subst hab
        rcases ih bs with h | h
        · left; simpa [charsLe] using h
        · right; simpa [charsLe] using h
      · rcases lt_or_gt_of_ne hab with hlt | hgt
        · left; simp [charsLe, hab, hlt]
        · right; simp [charsLe, Ne.symm hab, hgt]

lemma charsLe_trans :
    ∀ as bs cs, charsLe as bs = true → charsLe bs cs = true → charsLe as cs = true := by
  intro as
  induction as with
  | nil => intro bs cs _ _; rfl
  | cons a as ih =>
    intro bs cs h1 h2
    cases bs with
    | nil => simp [charsLe] at h1
    | cons b bs =>
      cases cs with
      | nil => simp [charsLe] at h2
      | cons c cs =>
        by_cases hab : a = b <;> by_cases hbc : b = c
        · subst hab; subst hbc
          simp only [charsLe, if_pos rfl] at h1 h2 ⊢
          exact ih bs cs h1 h2
        · subst hab
          simp only [charsLe, if_pos rfl] at h1
          simpa [charsLe, hbc] using h2
        · subst hbc
          simpa [charsLe, hab] using h1
        · simp only [charsLe, if_neg hab, decide_eq_true_eq] at h1
          simp only [charsLe, if_neg hbc, decide_eq_true_eq] at h2
          have hac : a < c := lt_trans h1 h2
          simp [charsLe, ne_of_lt hac, hac]

lemma charsLe_antisymm :
    ∀ as bs, charsLe as bs = true → charsLe bs as = true → as = bs := by
  intro as
  induction as with
  | nil =>
    intro bs _ h2
    cases bs with
    | nil => rfl
    | cons b bs => simp [charsLe] at h2
  | cons a as ih =>
    intro bs h1 h2
    cases bs with
    | nil => simp [charsLe] at h1
    | cons b bs =>
      by_cases hab : a = b
      · subst hab
        simp only [charsLe, if_pos rfl] at h1 h2
        rw [ih bs h1 h2]
      · simp only [charsLe, if_neg hab, decide_eq_true_eq] at h1
        simp only [charsLe, if_neg (Ne.symm hab), decide_eq_true_eq] at h2
        exact absurd h2 (not_lt_of_gt h1)

lemma strLe_refl (a : String) : strLeP a a := charsLe_refl a.data

instance : IsTrans String strLeP :=
  ⟨fun a b c h1 h2 => charsLe_trans a.data b.data c.data h1 h2⟩

instance : IsTotal String strLeP :=
  ⟨fun a b => charsLe_total a.data b.data⟩

instance : IsAntisymm String strLeP :=
  ⟨fun a b h1 h2 => by
    cases a with
    | mk as =>
      cases b with
      | mk bs => exact congrArg String.mk (charsLe_antisymm as bs h1 h2)⟩

lemma dedup_run_sublist (prev : String) (l : List String) :
    (dedup_run prev l).Sublist l := by
  induction l generalizing prev with
  | nil => simp [dedup_run]
  | cons b rest ih =>
    by_cases hb : b = prev
    · simpa [dedup_run, hb] using (ih prev).cons b
    · simpa [dedup_run, hb] using (ih b).cons₂ b

lemma dedup_consec_sublist (l : List String) : (dedup_consec l).Sublist l := by
  cases l with
  | nil => simp [dedup_consec]
  | cons a rest => simpa [dedup_consec] using (dedup_run_sublist a rest).cons₂ a

lemma dedup_run_pairwise_lt (l : List String) :
    ∀ prev, l.Pairwise strLeP → (∀ x ∈ l, strLeP prev x) →
      (prev :: dedup_run prev l).Pairwise (fun a b => strLeP a b ∧ a ≠ b) := by
  induction l with
  | nil => intro prev _ _; simp [dedup_run]
  | cons b rest ih =>
    intro prev hp hle
    have hprevb : strLeP prev b := hle b (by simp)
    have hrest : rest.Pairwise strLeP := (List.pairwise_cons.mp hp).2
    have hble : ∀ x ∈ rest, strLeP b x := (List.pairwise_cons.mp hp).1
    by_cases hb : b = prev
    · subst hb
      rw [dedup_run, if_pos rfl]
      exact ih b hrest hble
    · rw [dedup_run, if_neg hb]
      have htail : (b :: dedup_run b rest).Pairwise (fun a b => strLeP a b ∧ a ≠ b) :=
        ih b hrest hble
      refine List.pairwise_cons.mpr ⟨?_, htail⟩
      intro x hx
      rcases List.mem_cons.mp hx with rfl | hx
      · exact ⟨hprevb, fun he => hb (he.symm)⟩
      · have hxrest : x ∈ rest := (dedup_run_sublist b rest).mem hx
        refine ⟨hle x (List.mem_cons_of_mem b hxrest), fun he => ?_⟩
        subst he
        exact hb (antisymm (hble prev hxrest) hprevb)

lemma dedup_consec_sorted {l : List String} (h : l.Pairwise strLeP) :
    (dedup_consec l).Pairwise strLeP :=
  List.Pairwise.sublist (dedup_consec_sublist l) h

lemma dedup_consec_nodup {l : List String} (h : l.Pairwise strLeP) :
    (dedup_consec l).Nodup := by
  cases l with
  | nil => simp [dedup_consec]
  | cons a rest =>
    have := dedup_run_pairwise_lt rest a (List.pairwise_cons.mp h).2
      (List.pairwise_cons.mp h).1
    rw [dedup_consec]
    exact this.imp fun hab => hab.2

lemma insertionSort_sorted (l : List String) :
    (l.insertionSort strLeP).Pairwise strLeP :=
  List.sorted_insertionSort strLeP l

lemma sortedDedup_sorted (l : List String) : (sortedDedup l).Pairwise strLeP :=
  dedup_consec_sorted (insertionSort_sorted l)

lemma sortedDedup_nodup (l : List String) : (sortedDedup l).Nodup :=
  dedup_consec_nodup (insertionSort_sorted l)

lemma sortedDedup_perm_eq {l1 l2 : List String} (h : l1.Perm l2) :
    sortedDedup l1 = sortedDedup l2 := by
  unfold sortedDedup
  have hperm : (l1.insertionSort strLeP).Perm (l2.insertionSort strLeP) :=
    ((List.perm_insertionSort strLeP l1).trans h).trans
      (List.perm_insertionSort strLeP l2).symm
  rw [List.eq_of_perm_of_sorted hperm (insertionSort_sorted l1) (insertionSort_sorted l2)]

lemma except_bind_ok {ε α β : Type} (a : α) (f : α → Except ε β) :
    (Except.ok a >>= f) = f a := rfl

lemma except_bind_error {ε α β : Type} (e : ε) (f : α → Except ε β) :
    ((Except.error e : Except ε α) >>= f) = Except.error e := rfl

lemma except_pure {ε α : Type} (a : α) : (pure a : Except ε α) = Except.ok a := rfl

lemma process_entries_shift (dir : FsPath) (suffix : String) :
    ∀ (entries : List (Except IOErr DirEntry)) (pages : List String),
      process_entries dir suffix entries pages =
        Except.map (fun c => pages ++ c) (process_entries dir suffix entries []) := by
  intro entries
  induction entries with
  | nil => intro pages; simp [process_entries, Except.map]
  | cons e rest ih =>
    intro pages
    cases e with
    | error err => simp [process_entries, Except.map]
    | ok de =>
      cases hft : de.is_file with
      | error err => simp [process_entries, hft, Except.map]
      | ok b =>
        cases b with
        | false =>
          simp only [process_entries, hft]
          exact ih pages
        | true =>
          by_cases hv : de.name_valid
          · by_cases hew : strEndsWith de.file_name suffix
            · simp only [process_entries, hft, hv, hew, if_true]
              rw [ih (pages ++ [stripSuffix de.file_name suffix]),
                ih ([] ++ [stripSuffix de.file_name suffix])]
              cases process_entries dir suffix rest [] <;> simp [Except.map]
            · simp only [process_entries, hft, hv, hew, if_true, if_false]
              exact ih pages
          · simp only [Bool.not_eq_true] at hv
            simp [process_entries, hft, hv, Except.map]

lemma process_entries_of_fine (dir : FsPath) (suffix : String) :
    ∀ (entries : List (Except IOErr DirEntry)),
      (∀ e ∈ entries, EntryFine e) →
      process_entries dir suffix entries [] =
        .ok (entries.filterMap (entry_extract suffix)) := by
  intro entries
  induction entries with
  | nil => intro _; simp [process_entries]
  | cons e rest ih =>
    intro hfine
    have htail : ∀ e ∈ rest, EntryFine e := fun e he => hfine e (List.mem_cons_of_mem _ he)
    obtain ⟨de, b, rfl, hft, hvi⟩ := hfine _ (List.mem_cons_self _ _)
    cases b with
    | false =>
      simp only [process_entries, hft]
      rw [ih htail]
      simp [entry_extract, hft]
    | true =>
      have hv : de.name_valid = true := hvi rfl
      by_cases hew : strEndsWith de.file_name suffix
      · simp only [process_entries, hft, hv, hew, if_true]
        rw [process_entries_shift dir suffix rest, ih htail]
        simp [entry_extract, hft, hv, hew, Except.map]
      · simp only [process_entries, hft, hv, hew, if_true, if_false]
        rw [ih htail]
        simp [entry_extract, hft, hv, hew]

lemma process_entries_ok_fine (dir : FsPath) (suffix : String) :
    ∀ (entries : List (Except IOErr DirEntry)) (pages r : List String),
      process_entries dir suffix entries pages = .ok r →
      ∀ e ∈ entries, EntryFine e := by
  intro entries
  induction entries with
  | nil => intro pages r _ e he; cases he
  | cons e0 rest ih =>
    intro pages r h e he
    cases e0 with
    | error err => rw [process_entries] at h; cases h
    | ok de =>
      cases hft : de.is_file with
      | error err =>
        simp only [process_entries, hft] at h
        cases h
      | ok b =>
        rcases List.mem_cons.mp he with rfl | hemem
        · cases b with
          | true =>
            by_cases hv : de.name_valid
            · exact ⟨de, true, rfl, hft, fun _ => hv⟩
            · simp only [Bool.not_eq_true] at hv
              simp only [process_entries, hft, hv, Bool.false_eq_true, if_false] at h
              cases h
          | false => exact ⟨de, false, rfl, hft, by simp⟩
        · cases b with
          | false =>
            simp only [process_entries, hft] at h
            exact ih _ _ h e hemem
          | true =>
            by_cases hv : de.name_valid
            · by_cases hew : strEndsWith de.file_name suffix
              · simp only [process_entries, hft, hv, hew, if_true] at h
                exact ih _ _ h e hemem
              · simp only [process_entries, hft, hv, hew, if_true, if_false] at h
                exact ih _ _ h e hemem
            · simp only [Bool.not_eq_true] at hv
              simp only [process_entries, hft, hv, Bool.false_eq_true, if_false] at h
              cases h

lemma process_entries_ok_iff (dir : FsPath) (suffix : String)
    (entries : List (Except IOErr DirEntry)) (pages r : List String) :
    process_entries dir suffix entries pages = .ok r ↔
      ((∀ e ∈ entries, EntryFine e) ∧
        r = pages ++ entries.filterMap (entry_extract suffix)) := by
  constructor
  · intro h
    have hfine := process_entries_ok_fine dir suffix entries pages r h
    refine ⟨hfine, ?_⟩
    rw [process_entries_shift, process_entries_of_fine dir suffix entries hfine] at h
    simp only [Except.map] at h
    exact (Except.ok.inj h).symm
  · rintro ⟨hfine, rfl⟩
    rw [process_entries_shift, process_entries_of_fine dir suffix entries hfine]
    simp [Except.map]

lemma append_all_ok_iff (read_dir : ReadDir) (dir : FsPath) (suffix : String)
    (pages r : List String) :
    append_all read_dir dir suffix pages = .ok r ↔
      (DirFine read_dir dir ∧ r = pages ++ dir_names read_dir suffix dir) := by
  unfold append_all DirFine dir_names
  cases hrd : read_dir dir with
  | error err =>
    simp only [List.append_nil]
    constructor
    · intro h
      refine ⟨fun entries hok => ?_, (Except.ok.inj h).symm⟩
      cases hok
    · rintro ⟨_, rfl⟩; rfl
  | ok entries =>
    rw [process_entries_ok_iff]
    constructor
    · rintro ⟨hfine, rfl⟩
      refine ⟨fun entries2 hok => ?_, rfl⟩
      obtain rfl : entries = entries2 := Except.ok.inj hok
      exact hfine
    · rintro ⟨hfine, rfl⟩
      exact ⟨hfine entries rfl, rfl⟩

lemma fold_append_all_ok_iff (read_dir : ReadDir) :
    ∀ (dirs : List FsPath) (pages r : List String),
      dirs.foldlM (fun pages dir => append_all read_dir dir ".md" pages) pages = .ok r ↔
        ((∀ dir ∈ dirs, DirFine read_dir dir) ∧
          r = pages ++ dirs.flatMap (dir_names read_dir ".md")) := by
  intro dirs
  induction dirs with
  | nil =>
    intro pages r
    rw [List.foldlM_nil, except_pure]
    constructor
    · intro h
      exact ⟨fun d hd => absurd hd (List.not_mem_nil d),
        by simpa using (Except.ok.inj h).symm⟩
    · rintro ⟨_, rfl⟩
      simp
  | cons dir dirs ih =>
    intro pages r
    rw [List.foldlM_cons]
    cases happ : append_all read_dir dir ".md" pages with
    | error err =>
      rw [except_bind_error]
      constructor
      · intro h; cases h
      · rintro ⟨hfine, rfl⟩
        have hok := (append_all_ok_iff read_dir dir ".md" pages
          (pages ++ dir_names read_dir ".md" dir)).mpr
          ⟨hfine dir (List.mem_cons_self _ _), rfl⟩
        rw [happ] at hok
        cases hok
    | ok mid =>
      rw [except_bind_ok]
      have hmid := (append_all_ok_iff read_dir dir ".md" pages mid).mp happ
      rw [ih mid r]
      constructor
      · rintro ⟨hfds, rfl⟩
        refine ⟨?_, ?_⟩
        · intro d hd
          rcases List.mem_cons.mp hd with rfl | hd
          · exact hmid.1
          · exact hfds d hd
        · rw [hmid.2, List.flatMap_cons, List.append_assoc]
      · rintro ⟨hfine, rfl⟩
        refine ⟨fun d hd => hfine d (List.mem_cons_of_mem _ hd), ?_⟩
        rw [hmid.2, List.flatMap_cons, List.append_assoc]

lemma list_pages_ok_iff (read_dir : ReadDir) (cfg : CacheConfig) (r : List String) :
    list_pages read_dir cfg = .ok r ↔
      ((∀ dir ∈ list_pages_dirs cfg, DirFine read_dir dir) ∧
        (∀ d, cfg.custom_pages_directory = some d → DirFine read_dir d) ∧
        r = sortedDedup ((list_pages_dirs cfg).flatMap (dir_names read_dir ".md") ++
          custom_names read_dir cfg)) := by
  unfold list_pages custom_names
  cases hfold : (list_pages_dirs cfg).foldlM
      (fun pages dir => append_all read_dir dir ".md" pages) [] with
  | error err =>
    constructor
    · intro h; cases h
    · rintro ⟨hdirs, -, -⟩
      have hok := (fold_append_all_ok_iff read_dir (list_pages_dirs cfg) []
        ((list_pages_dirs cfg).flatMap (dir_names read_dir ".md"))).mpr
        ⟨hdirs, by simp⟩
      rw [hfold] at hok
      cases hok
  | ok mid =>
    obtain ⟨hdirs, hmid⟩ :=
      (fold_append_all_ok_iff read_dir (list_pages_dirs cfg) [] mid).mp hfold
    rw [List.nil_append] at hmid
    subst hmid
    cases hcd : cfg.custom_pages_directory with
    | none =>
      constructor
      · intro h
        simp only [Except.ok.injEq] at h
        refine ⟨hdirs, fun d2 hd2 => Option.noConfusion hd2, ?_⟩
        simpa using h.symm
      · rintro ⟨-, -, rfl⟩
        simp
    | some d =>
      cases happ : append_all read_dir d ".page.md"
          ((list_pages_dirs cfg).flatMap (dir_names read_dir ".md")) with
      | error err =>
        constructor
        · intro h
          simp [happ] at h
        · rintro ⟨-, hcust, -⟩
          have hfd : DirFine read_dir d := hcust d rfl
          have hok := (append_all_ok_iff read_dir d ".page.md"
            ((list_pages_dirs cfg).flatMap (dir_names read_dir ".md"))
            ((list_pages_dirs cfg).flatMap (dir_names read_dir ".md") ++
              dir_names read_dir ".page.md" d)).mpr ⟨hfd, rfl⟩
          rw [happ] at hok
          cases hok
      | ok fin =>
        obtain ⟨hfd, hfin⟩ := (append_all_ok_iff read_dir d ".page.md"
          ((list_pages_dirs cfg).flatMap (dir_names read_dir ".md")) fin).mp happ
        subst hfin
        constructor
        · intro h
          simp only [happ, Except.ok.injEq] at h
          refine ⟨hdirs, fun d2 hd2 => ?_, ?_⟩
          · obtain rfl : d = d2 := Option.some.inj hd2
            exact hfd
          · simpa using h.symm
        · rintro ⟨-, -, rfl⟩
          simp [happ]

lemma append_all_emptify (read_dir : ReadDir) (dir : FsPath) (suffix : String)
    (pages : List String) :
    append_all (emptifyReads read_dir) dir suffix pages =
      append_all read_dir dir suffix pages := by
  unfold append_all emptifyReads
  cases read_dir dir with
  | error err => rfl
  | ok entries => rfl

lemma list_pages_emptify (read_dir : ReadDir) (cfg : CacheConfig) :
    list_pages (emptifyReads read_dir) cfg = list_pages read_dir cfg := by
  unfold list_pages
  have hfa : (fun (pages : List String) (dir : FsPath) =>
      append_all (emptifyReads read_dir) dir ".md" pages) =
      fun pages dir => append_all read_dir dir ".md" pages :=
    funext fun pages => funext fun dir => append_all_emptify read_dir dir ".md" pages
  rw [hfa]
  cases (list_pages_dirs cfg).foldlM
      (fun pages dir => append_all read_dir dir ".md" pages) [] with
  | error err => rfl
  | ok mid =>
    cases hcd : cfg.custom_pages_directory with
    | none => rfl
    | some d => simp only [append_all_emptify]

lemma old_pages_scan_emptify (read_dir : ReadDir) (cfg : CacheConfig) :
    old_custom_pages_exist (emptifyReads read_dir) cfg =
      old_custom_pages_exist read_dir cfg := by
  unfold old_custom_pages_exist emptifyReads
  cases hcd : cfg.custom_pages_directory with
  | none => rfl
  | some d =>
    cases hrd : read_dir d with
    | error err => simp [hrd, old_pages_scan]
    | ok entries => simp [hrd]

lemma old_pages_scan_false_entries_ok :
    ∀ entries, old_pages_scan entries = .ok false →
      ∀ e ∈ entries, ∃ de, e = .ok de := by
  intro entries
  induction entries with
  | nil => intro _ e he; cases he
  | cons e0 rest ih =>
    intro h e he
    cases e0 with
    | error err => rw [old_pages_scan] at h; cases h
    | ok de =>
      rcases List.mem_cons.mp he with rfl | hemem
      · exact ⟨de, rfl⟩
      · cases hext : extension de.file_name with
        | none =>
          simp only [old_pages_scan, hext] at h
          exact ih h e hemem
        | some ext =>
          by_cases hpp : ext = "page" ∨ ext = "patch"
          · have : old_pages_scan (.ok de :: rest) = .ok true := by
              rcases hpp with rfl | rfl <;> simp [old_pages_scan, hext]
            rw [this] at h
            cases Except.ok.inj h
          · push_neg at hpp
            simp only [old_pages_scan, hext, hpp.1, hpp.2, if_false,
              Bool.or_self, decide_eq_true_eq] at h
            exact ih (by simpa using h) e hemem

lemma dir_names_perm {read1 read2 : ReadDir} (suffix : String) (dir : FsPath)
    (h : ReadRel (read1 dir) (read2 dir)) :
    (dir_names read1 suffix dir).Perm (dir_names read2 suffix dir) := by
  unfold dir_names
  cases h1 : read1 dir with
  | error e1 =>
    cases h2 : read2 dir with
    | error e2 => exact List.Perm.refl _
    | ok l2 =>
      rw [h1, h2] at h
      exact False.elim h
  | ok l1 =>
    cases h2 : read2 dir with
    | error e2 =>
      rw [h1, h2] at h
      exact False.elim h
    | ok l2 =>
      rw [h1, h2] at h
      exact List.Perm.filterMap _ h

lemma flatMap_dir_names_perm {read1 read2 : ReadDir} (suffix : String)
    (hrel : ∀ p, ReadRel (read1 p) (read2 p)) :
    ∀ dirs : List FsPath,
      (dirs.flatMap (dir_names read1 suffix)).Perm
        (dirs.flatMap (dir_names read2 suffix)) := by
  intro dirs
  induction dirs with
  | nil => simp
  | cons dir dirs ih =>
    rw [List.flatMap_cons, List.flatMap_cons]
    exact (dir_names_perm suffix dir (hrel dir)).append ih

lemma old_pages_scan_true_iff :
    ∀ entries, (∀ e ∈ entries, ∃ de, e = .ok de) →
      (old_pages_scan entries = .ok true ↔
        ∃ de, .ok de ∈ entries ∧
          (extension de.file_name = some "page" ∨
            extension de.file_name = some "patch")) := by
  intro entries
  induction entries with
  | nil =>
    intro _
    simp [old_pages_scan]
  | cons e0 rest ih =>
    intro hall
    obtain ⟨de, rfl⟩ := hall _ (List.mem_cons_self _ _)
    have htail : ∀ e ∈ rest, ∃ d2, e = .ok d2 :=
      fun e he => hall e (List.mem_cons_of_mem _ he)
    cases hext : extension de.file_name with
    | none =>
      simp only [old_pages_scan, hext]
      rw [ih htail]
      constructor
      · rintro ⟨de2, hmem, hor⟩
        exact ⟨de2, List.mem_cons_of_mem _ hmem, hor⟩
      · rintro ⟨de2, hmem, hor⟩
        rcases List.mem_cons.mp hmem with heq | hmem2
        · obtain rfl : de2 = de := Except.ok.inj heq
          rw [hext] at hor
          rcases hor with hco | hco <;> cases hco
        · exact ⟨de2, hmem2, hor⟩
    | some ext =>
      by_cases hpp : ext = "page" ∨ ext = "patch"
      · have hres : old_pages_scan (.ok de :: rest) = .ok true := by
          rcases hpp with rfl | rfl <;> simp [old_pages_scan, hext]
        rw [hres]
        simp only [true_iff]
        refine ⟨de, List.mem_cons_self _ _, ?_⟩
        rw [hext]
        rcases hpp with rfl | rfl
        · exact Or.inl rfl
        · exact Or.inr rfl
      · push_neg at hpp
        have hres : old_pages_scan (.ok de :: rest) = old_pages_scan rest := by
          simp [old_pages_scan, hext, hpp.1, hpp.2]
        rw [hres, ih htail]
        constructor
        · rintro ⟨de2, hmem, hor⟩
          exact ⟨de2, List.mem_cons_of_mem _ hmem, hor⟩
        · rintro ⟨de2, hmem, hor⟩
          rcases List.mem_cons.mp hmem with heq | hmem2
          · obtain rfl : de2 = de := Except.ok.inj heq
            rw [hext] at hor
            rcases hor with hco | hco <;>
              exact absurd (Option.some.inj hco) (by simp [hpp.1, hpp.2])
          · exact ⟨de2, hmem2, hor⟩

lemma splitSlash_no_slash : ∀ (l : List Char), '/' ∉ l → splitSlash l = [l] := by
  intro l
  induction l with
  | nil => intro _; rfl
  | cons c rest ih =>
    intro h
    have hc : ¬(c = '/') := fun he => h (he ▸ List.mem_cons_self _ _)
    have hrest : '/' ∉ rest := fun hm => h (List.mem_cons_of_mem _ hm)
    simp [splitSlash, hc, ih hrest]

lemma strComponents_single (c : String) (h1 : c ≠ "") (h2 : c ≠ ".")
    (h3 : '/' ∉ c.data) : strComponents c = [c] := by
  unfold strComponents
  rw [splitSlash_no_slash c.data h3]
  show List.filter _ [c] = [c]
  simp [h1, h2]

lemma strAbsolute_single (c : String) (h3 : '/' ∉ c.data) :
    strAbsolute c = false := by
  unfold strAbsolute
  cases hd : c.data with
  | nil => rfl
  | cons d rest =>
    have hne : ¬(d = '/') := fun he => h3 (by rw [hd, he]; exact List.mem_cons_self _ _)
    simp [hne]

lemma pushStr_single (p : PathB) (c : String) (h1 : c ≠ "") (h2 : c ≠ ".")
    (h3 : '/' ∉ c.data) :
    p.pushStr c = { p with comps := p.comps ++ [c] } := by
  unfold PathB.pushStr
  rw [strAbsolute_single c h3]
  simp [strComponents_single c h1 h2 h3]

lemma pop_append_single (absolute : Bool) (l : List String) (c : String) :
    PathB.pop { absolute := absolute, comps := l ++ [c] } =
      { absolute := absolute, comps := l } := by
  unfold PathB.pop
  simp [List.dropLast_concat]

lemma dropGuard_succ_pop : ∀ (n : Nat) (p : PathB),
    dropGuard (n + 1) p = (dropGuard n p).pop := by
  intro n
  induction n with
  | zero => intro p; rfl
  | succ n ih =>
    intro p
    show dropGuard (n + 1) (PathB.pop p) = (dropGuard (n + 1) p).pop
    rw [ih (PathB.pop p)]
    rfl

lemma clear_duplicates_go {α : Type} [DecidableEq α] :
    ∀ (l acc : List α),
      l.foldl (fun acc item => if item ∈ acc then acc else acc ++ [item]) acc =
        acc ++ firstOccsFrom acc l := by
  intro l
  induction l with
  | nil => intro acc; simp [firstOccsFrom]
  | cons x xs ih =>
    intro acc
    by_cases hx : x ∈ acc
    · rw [List.foldl_cons, if_pos hx, firstOccsFrom, if_pos hx, ih acc]
    · rw [List.foldl_cons, if_neg hx, firstOccsFrom, if_neg hx, ih (acc ++ [x])]
      simp [List.append_assoc]

lemma firstOccsFrom_sublist {α : Type} [DecidableEq α] :
    ∀ (l seen : List α), (firstOccsFrom seen l).Sublist l := by
  intro l
  induction l with
  | nil => intro seen; simp [firstOccsFrom]
  | cons x xs ih =>
    intro seen
    by_cases hx : x ∈ seen
    · rw [firstOccsFrom, if_pos hx]
      exact (ih seen).cons x
    · rw [firstOccsFrom, if_neg hx]
      exact (ih (seen ++ [x])).cons₂ x

lemma firstOccsFrom_not_seen {α : Type} [DecidableEq α] :
    ∀ (l seen : List α) (x : α), x ∈ firstOccsFrom seen l → x ∉ seen := by
  intro l
  induction l with
  | nil => intro seen x hx; cases hx
  | cons y xs ih =>
    intro seen x hx
    by_cases hy : y ∈ seen
    · rw [firstOccsFrom, if_pos hy] at hx
      exact ih seen x hx
    · rw [firstOccsFrom, if_neg hy] at hx
      rcases List.mem_cons.mp hx with rfl | hx2
      · exact hy
      · intro hseen
        exact ih (seen ++ [y]) x hx2 (List.mem_append_left _ hseen)

lemma firstOccsFrom_nodup {α : Type} [DecidableEq α] :
    ∀ (l seen : List α), (firstOccsFrom seen l).Nodup := by
  intro l
  induction l with
  | nil => intro seen; simp [firstOccsFrom]
  | cons y xs ih =>
    intro seen
    by_cases hy : y ∈ seen
    · rw [firstOccsFrom, if_pos hy]
      exact ih seen
    · rw [firstOccsFrom, if_neg hy]
      refine List.nodup_cons.mpr ⟨?_, ih (seen ++ [y])⟩
      intro hmem
      exact firstOccsFrom_not_seen xs (seen ++ [y]) y hmem
        (List.mem_append_right _ (List.mem_cons_self _ _))

lemma firstOccsFrom_of_nodup {α : Type} [DecidableEq α] :
    ∀ (l seen : List α), l.Nodup → (∀ x ∈ l, x ∉ seen) →
      firstOccsFrom seen l = l := by
  intro l
  induction l with
  | nil => intro seen _ _; rfl
  | cons y xs ih =>
    intro seen hnd hdisj
    rw [firstOccsFrom, if_neg (hdisj y (List.mem_cons_self _ _))]
    congr 1
    refine ih (seen ++ [y]) (List.nodup_cons.mp hnd).2 ?_
    intro x hx hmem
    rcases List.mem_append.mp hmem with hseen | hy
    · exact hdisj x (List.mem_cons_of_mem _ hx) hseen
    · obtain rfl : x = y := by simpa using hy
      exact (List.nodup_cons.mp hnd).1 hx

/-- C1: when no custom `.page.md` override exists for the command,
`find_page` probes the candidate paths
`<root>/pages.<language>/<platform>/<command>.md` with the platform list as
the outer loop and the language list as the inner loop, and returns the
first candidate in that platform-major order that is a regular file
(with the candidate patch path attached). -/
theorem find_page_platform_major (is_file : FsPath → Bool) (cfg : CacheConfig)
    (command : String)
    (hcustom : ∀ d, cfg.custom_pages_directory = some d →
      is_file (d ++ [command ++ ".page.md"]) = false) :
    find_page is_file cfg command =
      ((tree_candidates cfg command).find? is_file).map fun p =>
        { page_path := p
          patch_path := Option.filter is_file
            (cfg.custom_pages_directory.map fun dir => dir ++ [command ++ ".patch.md"]) } := by
  cases hd : cfg.custom_pages_directory with
  | none =>
    simp [find_page, tree_candidates, hd, List.find?_flatMap, List.find?_map,
      map_findSome?, findSome?_ite_eq_find?_map, Option.map_map, Function.comp_def,
      PageLookupResult.with_page, PageLookupResult.with_optional_patch]
  | some d =>
    simp [find_page, tree_candidates, hd, hcustom d hd, List.find?_flatMap,
      List.find?_map, map_findSome?, findSome?_ite_eq_find?_map, Option.map_map,
      Function.comp_def, PageLookupResult.with_page, PageLookupResult.with_optional_patch]

theorem find_page_platform_major_witness :
    find_page
      (fun p => decide (p = ["root", "pages.de", "linux", "tar.md"]) ||
        decide (p = ["root", "pages.en", "osx", "tar.md"]))
      { pages_directory := ["root"], custom_pages_directory := none,
        platforms := [.linux, .osx], languages := ["en", "de"] } "tar" =
      some { page_path := ["root", "pages.de", "linux", "tar.md"], patch_path := none } :=
  (find_page_platform_major
      (fun p => decide (p = ["root", "pages.de", "linux", "tar.md"]) ||
        decide (p = ["root", "pages.en", "osx", "tar.md"]))
      { pages_directory := ["root"], custom_pages_directory := none,
        platforms := [.linux, .osx], languages := ["en", "de"] } "tar"
      (fun d hd => nomatch hd)).trans (by decide)

/-- C2: if a custom pages directory is configured and
`<custom_dir>/<command>.page.md` is a regular file, `find_page` returns
that custom page with no patch attached, regardless of the rest of the
filesystem. -/
theorem find_page_custom_override (is_file : FsPath → Bool) (cfg : CacheConfig)
    (command : String) (d : FsPath)
    (hd : cfg.custom_pages_directory = some d)
    (hf : is_file (d ++ [command ++ ".page.md"]) = true) :
    find_page is_file cfg command =
      some { page_path := d ++ [command ++ ".page.md"], patch_path := none } := by
  simp [find_page, hd, hf, PageLookupResult.with_page]

theorem find_page_custom_override_witness :
    find_page (fun _ => true)
      { pages_directory := ["root"], custom_pages_directory := some ["custom"],
        platforms := [.linux], languages := ["en"] } "tar" =
      some { page_path := ["custom", "tar.page.md"], patch_path := none } :=
  find_page_custom_override (fun _ => true)
    { pages_directory := ["root"], custom_pages_directory := some ["custom"],
      platforms := [.linux], languages := ["en"] } "tar" ["custom"] rfl rfl

/-- C3: when its files open successfully, fully draining the stream
returned by `reader` yields exactly the page bytes, then one newline byte
(`10`), then the patch bytes when a patch path is present; and exactly the
page bytes, with nothing appended, when no patch path is present. -/
theorem reader_drain_bytes (openFile : FsPath → Option (List Nat))
    (r : PageLookupResult) (pb : List Nat) (hpage : openFile r.page_path = some pb) :
    (r.patch_path = none →
      ∃ s, r.reader openFile = .ok s ∧ s.drain = pb) ∧
    (∀ p qb, r.patch_path = some p → openFile p = some qb →
      ∃ s, r.reader openFile = .ok s ∧ s.drain = pb ++ 10 :: qb) := by
  constructor
  · intro hnone
    exact ⟨.file pb, by simp [PageLookupResult.reader, hpage, hnone],
      by simp [RSource.drain_eq_contents, RSource.contents]⟩
  · intro p qb hp hq
    refine ⟨.chain (.chain (.file pb) (.file [10])) (.file qb),
      by simp [PageLookupResult.reader, hpage, hp, hq], ?_⟩
    simp [RSource.drain_eq_contents, RSource.contents]

theorem reader_drain_bytes_witness :
    ∃ s, PageLookupResult.reader
        (fun p => if p = ["page.md"] then some [72, 101, 108, 108, 111, 10]
          else if p = ["patch.md"] then some [87, 111, 114, 108, 100] else none)
        { page_path := ["page.md"], patch_path := some ["patch.md"] } = .ok s ∧
      s.drain = [72, 101, 108, 108, 111, 10, 10, 87, 111, 114, 108, 100] := by
  simpa using (reader_drain_bytes
    (fun p => if p = ["page.md"] then some [72, 101, 108, 108, 111, 10]
      else if p = ["patch.md"] then some [87, 111, 114, 108, 100] else none)
    { page_path := ["page.md"], patch_path := some ["patch.md"] }
    [72, 101, 108, 108, 111, 10] rfl).2 ["patch.md"] [87, 111, 114, 108, 100] rfl rfl

/-- C4: `update` either fully succeeds, or on any transfer failure reports
the failure and leaves every file (in particular every pre-existing file
under the cache root) byte-identical.  The operation is modelled from the
spec because its body is `todo!()` in the source. -/
theorem update_exception_safety (root : FsPath) (fs : FsPath → Option (List Nat))
    (transfer : Except String (FsPath → Option (List Nat))) :
    (∀ e, transfer = .error e →
      (update root fs transfer).2 = .error e ∧
        ∀ p, (update root fs transfer).1 p = fs p) ∧
    (∀ staged, transfer = .ok staged →
      (update root fs transfer).2 = .ok () ∧
        ∀ p, (update root fs transfer).1 p =
          if underRoot root p then staged (p.drop root.length) else fs p) := by
  constructor
  · rintro e rfl
    exact ⟨rfl, fun p => rfl⟩
  · rintro staged rfl
    exact ⟨rfl, fun p => rfl⟩

theorem update_exception_safety_witness :
    (update ["root"]
      (fun p => if p = ["root", "pages.en", "linux", "tar.md"] then some [1, 2] else none)
      (.error "transfer failed")).2 = .error "transfer failed" ∧
    (update ["root"]
      (fun p => if p = ["root", "pages.en", "linux", "tar.md"] then some [1, 2] else none)
      (.error "transfer failed")).1 ["root", "pages.en", "linux", "tar.md"] = some [1, 2] := by
  have h := (update_exception_safety ["root"]
    (fun p => if p = ["root", "pages.en", "linux", "tar.md"] then some [1, 2] else none)
    (.error "transfer failed")).1 "transfer failed" rfl
  exact ⟨h.1, (h.2 ["root", "pages.en", "linux", "tar.md"]).trans (by decide)⟩

/-- C5 counterexample: a pages subdirectory that exists but cannot be read
(`read_dir` fails with permission denied) is silently treated as empty:
`list_pages` succeeds with an empty listing instead of propagating the
error. -/
theorem list_pages_swallows_permission_denied :
    list_pages (fun _ => .error .permissionDenied)
      { pages_directory := ["root"], custom_pages_directory := none,
        platforms := [.linux], languages := ["en"] } = .ok [] := by
  rfl

/-- C5 (amended): entry-level errors (failed entry reads, failed file-type
queries, invalid filenames) propagate out of `list_pages` and
`old_custom_pages_exist`, but any failure of `read_dir` itself — a missing
directory or one that exists and cannot be read, e.g. permission denied —
is treated as a normal empty result for the affected directory. -/
theorem error_propagation_policy (read_dir : ReadDir) (cfg : CacheConfig) :
    (list_pages (emptifyReads read_dir) cfg = list_pages read_dir cfg) ∧
    (old_custom_pages_exist (emptifyReads read_dir) cfg =
      old_custom_pages_exist read_dir cfg) ∧
    (∀ r, list_pages read_dir cfg = .ok r →
      (∀ dir ∈ list_pages_dirs cfg, DirFine read_dir dir) ∧
      (∀ d, cfg.custom_pages_directory = some d → DirFine read_dir d)) ∧
    (∀ d entries, cfg.custom_pages_directory = some d →
      read_dir d = .ok entries → old_custom_pages_exist read_dir cfg = .ok false →
      ∀ e ∈ entries, ∃ de, e = .ok de) := by
  refine ⟨list_pages_emptify read_dir cfg, old_pages_scan_emptify read_dir cfg,
    fun r h => ?_, fun d entries hd he hfalse => ?_⟩
  · obtain ⟨h1, h2, -⟩ := (list_pages_ok_iff read_dir cfg r).mp h
    exact ⟨h1, h2⟩
  · have hscan : old_pages_scan entries = .ok false := by
      have hocpe : old_custom_pages_exist read_dir cfg =
          match read_dir d with
          | Except.error _ => Except.ok false
          | Except.ok es => old_pages_scan es := by
        unfold old_custom_pages_exist
        rw [hd]
      rw [hocpe, he] at hfalse
      exact hfalse
    exact old_pages_scan_false_entries_ok entries hscan

theorem error_propagation_policy_witness :
    DirFine
      (fun _ => .ok [.ok { file_name := "tar.md", name_valid := true, is_file := .ok true }])
      ["root", "pages.en", "linux"] :=
  ((error_propagation_policy
      (fun _ => .ok [.ok { file_name := "tar.md", name_valid := true, is_file := .ok true }])
      { pages_directory := ["root"], custom_pages_directory := none,
        platforms := [.linux], languages := ["en"] }).2.2.1 ["tar"] (by rfl)).1
    ["root", "pages.en", "linux"] (by decide)

/-- C6: for a fixed directory tree, `list_pages` output is a sorted,
duplicate-free list independent of the enumeration order `read_dir`
happens to produce; in particular (taking both readers equal) calling it
twice with no filesystem change yields identical output. -/
theorem list_pages_sorted_dedup_deterministic (read1 read2 : ReadDir)
    (cfg : CacheConfig) (r1 r2 : List String)
    (hrel : ∀ p, ReadRel (read1 p) (read2 p))
    (h1 : list_pages read1 cfg = .ok r1) (h2 : list_pages read2 cfg = .ok r2) :
    r1 = r2 ∧ r1.Pairwise strLeP ∧ r1.Nodup := by
  obtain ⟨-, -, hr1⟩ := (list_pages_ok_iff read1 cfg r1).mp h1
  obtain ⟨-, -, hr2⟩ := (list_pages_ok_iff read2 cfg r2).mp h2
  subst hr1
  subst hr2
  refine ⟨?_, sortedDedup_sorted _, sortedDedup_nodup _⟩
  apply sortedDedup_perm_eq
  refine (flatMap_dir_names_perm ".md" hrel (list_pages_dirs cfg)).append ?_
  unfold custom_names
  cases hcd : cfg.custom_pages_directory with
  | none => exact List.Perm.refl _
  | some d => exact dir_names_perm ".page.md" d (hrel d)

theorem list_pages_sorted_dedup_deterministic_witness :
    ["a", "b"] = ["a", "b"] ∧ List.Pairwise strLeP ["a", "b"] ∧
      List.Nodup ["a", "b"] := by
  refine list_pages_sorted_dedup_deterministic
    (fun p => if p = ["root", "pages.en", "linux"] then
        .ok [.ok { file_name := "b.md", name_valid := true, is_file := .ok true },
          .ok { file_name := "a.md", name_valid := true, is_file := .ok true }]
      else .error .notFound)
    (fun p => if p = ["root", "pages.en", "linux"] then
        .ok [.ok { file_name := "a.md", name_valid := true, is_file := .ok true },
          .ok { file_name := "b.md", name_valid := true, is_file := .ok true }]
      else .error .notFound)
    { pages_directory := ["root"], custom_pages_directory := none,
      platforms := [.linux], languages := ["en"] }
    ["a", "b"] ["a", "b"] ?_ (by decide) (by decide)
  intro p
  by_cases hp : p = ["root", "pages.en", "linux"]
  · subst hp
    show ReadRel
      (Except.ok
        [.ok { file_name := "b.md", name_valid := true, is_file := .ok true },
          .ok { file_name := "a.md", name_valid := true, is_file := .ok true }])
      (Except.ok
        [.ok { file_name := "a.md", name_valid := true, is_file := .ok true },
          .ok { file_name := "b.md", name_valid := true, is_file := .ok true }])
    exact List.Perm.swap _ _ []
  · simp only [if_neg hp]
    exact trivial

/-- C7: `old_custom_pages_exist` returns `.ok true` iff a custom directory
is configured, readable (directory and entries), and some entry's file
extension is exactly `page` or exactly `patch`; it returns `.ok false`
(not an error) when no custom directory is configured or reading it
fails; a `<x>.page.md` or `<x>.patch.md` entry (extension `md`) never
triggers it. -/
theorem old_custom_pages_ext_characterization (read_dir : ReadDir)
    (cfg : CacheConfig) :
    (cfg.custom_pages_directory = none →
      old_custom_pages_exist read_dir cfg = .ok false) ∧
    (∀ d e, cfg.custom_pages_directory = some d → read_dir d = .error e →
      old_custom_pages_exist read_dir cfg = .ok false) ∧
    (∀ d entries, cfg.custom_pages_directory = some d → read_dir d = .ok entries →
      (∀ e ∈ entries, ∃ de, e = .ok de) →
      (old_custom_pages_exist read_dir cfg = .ok true ↔
        ∃ de, .ok de ∈ entries ∧
          (extension de.file_name = some "page" ∨
            extension de.file_name = some "patch"))) := by
  refine ⟨fun h => ?_, fun d e hd he => ?_, fun d entries hd he hall => ?_⟩
  · unfold old_custom_pages_exist
    rw [h]
  · unfold old_custom_pages_exist
    rw [hd]
    show (match read_dir d with
      | Except.error _ => Except.ok false
      | Except.ok entries => old_pages_scan entries) = Except.ok false
    rw [he]
  · have hocpe : old_custom_pages_exist read_dir cfg = old_pages_scan entries := by
      unfold old_custom_pages_exist
      rw [hd]
      show (match read_dir d with
        | Except.error _ => Except.ok false
        | Except.ok es => old_pages_scan es) = old_pages_scan entries
      rw [he]
    rw [hocpe]
    exact old_pages_scan_true_iff entries hall

theorem old_custom_pages_ext_characterization_witness :
    old_custom_pages_exist
      (fun _ =>
        .ok [.ok { file_name := "b.page.md", name_valid := true, is_file := .ok true },
          .ok { file_name := "a.page", name_valid := true, is_file := .ok true }])
      { pages_directory := ["root"], custom_pages_directory := some ["custom"],
        platforms := [], languages := [] } = .ok true := by
  refine ((old_custom_pages_ext_characterization
      (fun _ =>
        .ok [.ok { file_name := "b.page.md", name_valid := true, is_file := .ok true },
          .ok { file_name := "a.page", name_valid := true, is_file := .ok true }])
      { pages_directory := ["root"], custom_pages_directory := some ["custom"],
        platforms := [], languages := [] }).2.2 ["custom"] _ rfl rfl ?_).mpr ?_
  · intro e he
    rcases List.mem_cons.mp he with rfl | he2
    · exact ⟨_, rfl⟩
    · rcases List.mem_cons.mp he2 with rfl | he3
      · exact ⟨_, rfl⟩
      · cases he3
  · exact ⟨{ file_name := "a.page", name_valid := true, is_file := .ok true },
      by simp, Or.inl (by decide)⟩

/-- C8: `reader` fails with an error naming the offending path whenever the
page file, or a present patch file, cannot be opened, and returns a reader
exactly when every required file opens. -/
theorem reader_error_paths (openFile : FsPath → Option (List Nat))
    (r : PageLookupResult) :
    (openFile r.page_path = none →
      r.reader openFile =
        .error ("Could not open page file at " ++ pathDisplay r.page_path)) ∧
    (∀ pb p, openFile r.page_path = some pb → r.patch_path = some p →
      openFile p = none →
      r.reader openFile =
        .error ("Could not open patch file at " ++ pathDisplay p)) ∧
    ((∃ s, r.reader openFile = .ok s) ↔
      (∃ pb, openFile r.page_path = some pb) ∧
        ∀ p, r.patch_path = some p → ∃ qb, openFile p = some qb) := by
  refine ⟨fun h => by simp [PageLookupResult.reader, h], fun pb p hpb hp hn => by
    simp [PageLookupResult.reader, hpb, hp, hn], ?_⟩
  constructor
  · rintro ⟨s, hs⟩
    cases hpage : openFile r.page_path with
    | none => simp [PageLookupResult.reader, hpage] at hs
    | some pb =>
      refine ⟨⟨pb, rfl⟩, fun p hp => ?_⟩
      cases hq : openFile p with
      | none => simp [PageLookupResult.reader, hpage, hp, hq] at hs
      | some qb => exact ⟨qb, rfl⟩
  · rintro ⟨⟨pb, hpb⟩, hpatch⟩
    cases hp : r.patch_path with
    | none => exact ⟨.file pb, by simp [PageLookupResult.reader, hpb, hp]⟩
    | some p =>
      obtain ⟨qb, hqb⟩ := hpatch p hp
      exact ⟨.chain (.chain (.file pb) (.file [10])) (.file qb),
        by simp [PageLookupResult.reader, hpb, hp, hqb]⟩

theorem reader_error_paths_witness :
    PageLookupResult.reader (fun _ => none) { page_path := ["a"], patch_path := none } =
      .error "Could not open page file at a" :=
  ((reader_error_paths (fun _ => none)
    { page_path := ["a"], patch_path := none }).1 rfl).trans rfl

/-- C9 counterexample: a single array element containing a separator
pushes two components, yet the guard pops only once per element, so the
accumulator is not restored to its prior value when the guard is
dropped. -/
theorem pathbuf_with_counterexample :
    dropGuard 1 (pathBufWith { absolute := false, comps := [] } ["a/b"]) ≠
      { absolute := false, comps := [] } := by decide

/-- C9 (amended): `with` pushes the components, and dropping the guard
(pop once per array element, on every exit from the scope) restores the
accumulator to exactly its prior value, provided each array element is a
plain single path segment — nonempty, not `.`, and containing no
separator. -/
theorem pathbuf_with_restores (p : PathB) (components : List String)
    (h : ∀ c ∈ components, c ≠ "" ∧ c ≠ "." ∧ '/' ∉ c.data) :
    dropGuard components.length (pathBufWith p components) = p := by
  induction components generalizing p with
  | nil => rfl
  | cons c cs ih =>
    obtain ⟨h1, h2, h3⟩ := h c (List.mem_cons_self _ _)
    have htail : ∀ c2 ∈ cs, c2 ≠ "" ∧ c2 ≠ "." ∧ '/' ∉ c2.data :=
      fun c2 hc2 => h c2 (List.mem_cons_of_mem _ hc2)
    show dropGuard (cs.length + 1) (pathBufWith (p.pushStr c) cs) = p
    rw [dropGuard_succ_pop, ih (p.pushStr c) htail, pushStr_single p c h1 h2 h3]
    cases p with
    | mk absolute comps => exact pop_append_single absolute comps c

theorem pathbuf_with_restores_witness :
    dropGuard 2 (pathBufWith { absolute := false, comps := ["x"] } ["a", "b"]) =
      { absolute := false, comps := ["x"] } :=
  pathbuf_with_restores { absolute := false, comps := ["x"] } ["a", "b"] (by decide)

/-- C10: `clear_duplicates` keeps exactly the first occurrence of each
distinct element, in first-occurrence order (it equals the
first-occurrences function and is a subsequence of the input); hence the
result has no duplicates and a second application leaves it unchanged. -/
theorem clear_duplicates_spec {α : Type} [DecidableEq α] (l : List α) :
    clear_duplicates l = firstOccsFrom [] l ∧
    (clear_duplicates l).Nodup ∧
    (clear_duplicates l).Sublist l ∧
    clear_duplicates (clear_duplicates l) = clear_duplicates l := by
  have hgo : clear_duplicates l = firstOccsFrom [] l := by
    unfold clear_duplicates
    rw [clear_duplicates_go l []]
    rfl
  refine ⟨hgo, ?_, ?_, ?_⟩
  · rw [hgo]
    exact firstOccsFrom_nodup l []
  · rw [hgo]
    exact firstOccsFrom_sublist l []
  · rw [hgo]
    unfold clear_duplicates
    rw [clear_duplicates_go _ []]
    rw [firstOccsFrom_of_nodup _ [] (firstOccsFrom_nodup l [])
      (fun x _ hx => List.not_mem_nil x hx)]
    rfl
